import Mathlib

/-!
Shallow embedding of the diff-tree synchronization engine of the
vscode-git-tree-compare extension, translated from `src/treeProvider.ts`
(the `GitTreeCompareProvider` class: `updateDiff`, `updateRefs`,
`promptChangeBase`) and `src/gitHelper.ts` (`diffIndex`).

Paths are modelled as Lean strings with POSIX separators, matching the
Node `path` module semantics (`path.sep = "/"`, `path.dirname`) for the
normalized absolute paths the provider passes around.  JS `Map` objects
are modelled as insertion-ordered association lists.  Backend (git)
invocations are supplied as oracle values, one per call site.
-/

namespace GitTreeCompare

/-- Git status codes, from gitHelper.ts `type StatusCode = 'A' | 'D' | 'M' | 'C' | 'U' | 'T'`. -/
inductive StatusCode where
  | A
  | D
  | M
  | C
  | U
  | T
deriving DecidableEq

/-- One diff entry (gitHelper.ts `DiffStatus`): status, absolute path on disk,
and whether the old or new object mode is the submodule mode. -/
structure DiffStatus where
  status : StatusCode
  absPath : String
  isSubmodule : Bool
deriving DecidableEq

/-- Strict lexicographic order on code points, the order JS uses when
comparing strings with `<` or in the default `Array.prototype.sort()`
(UTF-16 code units; all paths in this development are ASCII, where code
units and code points agree). -/
def lexLt : List Char → List Char → Bool
  | [], [] => false
  | [], _ :: _ => true
  | _ :: _, [] => false
  | a :: as, b :: bs =>
    if a.val < b.val then true else if b.val < a.val then false else lexLt as bs

/-- Non-strict code point order on strings. -/
def codepointLe (a b : String) : Bool := !(lexLt b.data a.data)

/-- JS `s.startsWith(pre)`. -/
def jsStartsWith (s pre : String) : Bool := pre.data.isPrefixOf s.data

/-- Node `path.dirname` (POSIX rules) for the normalized slash-separated
paths used here: the part before the last separator, `"/"` when that part
is empty, `"."` when the path has no separator. -/
def dirname (s : String) : String :=
  match s.data.reverse.dropWhile (fun c => c ≠ '/') with
  | [] => "."
  | _ :: rest => if rest = [] then "/" else ⟨rest.reverse⟩

/-- Node `path.join(root, rel)` for a normalized root and a relative path
(gitHelper.ts `this.absPath = path.join(repo.root, relPath)`). -/
def pathJoin (root rel : String) : String := root ++ "/" ++ rel

/-- JS `map.has(k)` on an insertion-ordered association list. -/
def mapHas (m : List (String × α)) (k : String) : Bool := m.any (fun p => p.1 == k)

/-- JS `map.get(k)` on an insertion-ordered association list. -/
def mapGet? (m : List (String × α)) (k : String) : Option α :=
  (m.find? (fun p => p.1 == k)).map Prod.snd

/-- JS `map.set(k, v)`: update in place when the key exists, append otherwise
(insertion order of keys is preserved). -/
def mapSet (m : List (String × α)) (k : String) (v : α) : List (String × α) :=
  if mapHas m k then m.map (fun p => if p.1 == k then (k, v) else p) else m ++ [(k, v)]

/-- JS `map.keys()` in insertion order. -/
def mapKeys (m : List (String × α)) : List String := m.map Prod.fst

/-- Model of `files.get(k)!.push(e)` at treeProvider.ts:1370-1371: append `e`
to the array stored under `k` (the key is always present on the reachable
inputs). -/
def mapPush (m : List (String × List α)) (k : String) (e : α) : List (String × List α) :=
  m.map (fun p => if p.1 == k then (p.1, p.2 ++ [e]) else p)

/-- The two folder mappings built by `updateDiff` (treeProvider.ts:1343-1344):
changed entries inside the tree root and outside of it, each keyed by
absolute folder path. -/
structure FoldedMaps where
  insideMap : List (String × List DiffStatus)
  outsideMap : List (String × List DiffStatus)
deriving DecidableEq

/-- The `while (currentFolder != rootFolder)` loop of treeProvider.ts:1362-1368,
adding the folder and each of its ancestors (strictly below the partition
root) to the mapping.  The loop is fuel-bounded here; on the inputs the
provider produces, the dirname chain reaches the root within the fuel. -/
def addParents : Nat → List (String × List DiffStatus) → String → String →
    List (String × List DiffStatus)
  | 0, files, _, _ => files
  | fuel + 1, files, currentFolder, rootFolder =>
    if currentFolder == rootFolder then files
    else
      addParents fuel
        (if mapHas files currentFolder then files else mapSet files currentFolder [])
        (dirname currentFolder) rootFolder

/-- Processing of one diff entry in the fold of treeProvider.ts:1350-1372
(identically treeProvider.ts:377-399 in the earlier revision): classify the
entry by its containing folder, seed the partition root when the partition
map is empty, add all parent folders, and push the entry into its folder. -/
def foldStep (treeRoot repoRoot : String) (maps : FoldedMaps) (entry : DiffStatus) :
    FoldedMaps :=
  let folder := dirname entry.absPath
  let isInsideTreeRoot := folder == treeRoot || jsStartsWith folder (treeRoot ++ "/")
  let files := if isInsideTreeRoot then maps.insideMap else maps.outsideMap
  let rootFolder := if isInsideTreeRoot then treeRoot else repoRoot
  let files := if files.length == 0 then mapSet files rootFolder [] else files
  let files := addParents (folder.length + 1) files folder rootFolder
  let files := mapPush files folder entry
  if isInsideTreeRoot then { maps with insideMap := files }
  else { maps with outsideMap := files }

/-- The fold of a diff entry list into the two folder mappings
(treeProvider.ts:1343-1372, and 371-399 of the earlier revision). -/
def foldDiff (treeRoot repoRoot : String) (diff : List DiffStatus) : FoldedMaps :=
  diff.foldl (foldStep treeRoot repoRoot) ⟨[], []⟩

/-- The dirname chain from `p` reaches `root` within `n` steps: the
termination condition of the parent-folder loop (treeProvider.ts:1363). -/
def reachesRoot (root p : String) : Nat → Bool
  | 0 => p == root
  | n + 1 => p == root || reachesRoot root (dirname p) n

/-- The ancestor chain `[p, dirname p, ...]` up to and including `root`,
truncated at the given fuel. -/
def chainTo (root p : String) : Nat → List String
  | 0 => [p]
  | n + 1 => if p == root then [p] else p :: chainTo root (dirname p) n

/-- Model of `sortedArraysEqual` (treeProvider.ts:827-837): element-wise
comparison of two arrays of strings, equivalent to list equality. -/
def sortedArraysEqual (a b : List String) : Bool := a == b

/-- The `hasChanged` closure of the earlier-revision `updateDiff`
(treeProvider.ts:404-419): a folder counts as changed when the list of its
direct file paths followed by its direct subfolder names differs between
the old and the new mapping.  Note it compares `f.absPath` only: the status
of a file does not enter the comparison. -/
def hasChanged (oldFiles newFiles : List (String × List DiffStatus))
    (folderPath : String) : Bool :=
  let oldItems := ((mapGet? oldFiles folderPath).getD []).map (·.absPath)
  let newItems := ((mapGet? newFiles folderPath).getD []).map (·.absPath)
  let oldItems := oldItems ++ (mapKeys oldFiles).filter (fun f => dirname f == folderPath)
  let newItems := newItems ++ (mapKeys newFiles).filter (fun f => dirname f == folderPath)
  !(sortedArraysEqual oldItems newItems)

/-- Non-strict code point order used to model the default (comparator-less)
JS `Array.prototype.sort()` on strings, as in `dirtyFolders.sort()`
(treeProvider.ts:445). -/
def jsStrLe (a b : String) : Bool := !(lexLt b.data a.data)

/-- Model of `dirtyFolders.sort()` (treeProvider.ts:445): the default JS sort
is a stable sort by code units; a stable insertion sort under the same total
order produces the identical list. -/
def jsSortStrings (l : List String) : List String :=
  List.insertionSort (fun a b => jsStrLe a b = true) l

/-- The greedy keep loop of treeProvider.ts:446-452: walk the sorted dirty
folders, keeping one only when it does not extend the most recently kept
folder (initially the empty string) followed by `path.sep`. -/
def keepNonDescendant : String → List String → List String
  | _, [] => []
  | lastAddedFolder, dirtyFolder :: rest =>
    if jsStartsWith dirtyFolder (lastAddedFolder ++ "/") then
      keepNonDescendant lastAddedFolder rest
    else dirtyFolder :: keepNonDescendant dirtyFolder rest

/-- The minimization of treeProvider.ts:444-453 applied to one partition's
dirty folder list: sort, then greedily drop folders below the most recently
kept one. -/
def minimizeDirtyFolders (dirtyFolders : List String) : List String :=
  keepNonDescendant "" (jsSortStrings dirtyFolders)

/-- The minimal dirty set as the specification describes it: sort the dirty
folder paths lexicographically and keep a path only if it is not a
descendant (by path-separator prefix) of an already-kept path. -/
def specMinimalDirtySet (dirtyFolders : List String) : List String :=
  (jsSortStrings dirtyFolders).foldl
    (fun kept d => if kept.any (fun k => jsStartsWith d (k ++ "/")) then kept else kept ++ [d])
    []

/-- The change signal `updateDiff` sends through `_onDidChangeTreeData`:
either one event with no element (full invalidation) or one event per
minimal dirty folder (partial invalidation). -/
inductive ChangeSignal where
  | fullInvalidate
  | partInvalidate (folders : List String)
deriving DecidableEq

/-- The provider state relevant to the embedded methods: the tree and
repository roots, the two folder mappings, the loaded folder elements
(keys only), the diff-mode flag, the comparison state fields set by
`updateRefs`, the persisted base ref, and the checkbox states. -/
structure ProviderState where
  treeRoot : String
  repoRoot : String
  filesInsideTreeRoot : List (String × List DiffStatus)
  filesOutsideTreeRoot : List (String × List DiffStatus)
  loadedFolderElements : List String
  fullDiff : Bool
  headLastChecked : Nat
  headName : Option String
  headCommit : String
  baseRef : Option String
  mergeBase : String
  storedBaseRef : Option String
  checkboxStates : List (String × Bool)
deriving DecidableEq

/-- The earlier-revision `updateDiff` with `fireChangeEvents = true`
(treeProvider.ts:365-486): fold the new diff, decide between a full refresh
(tree-root level change or partition emptiness toggle) and the collection
of dirty loaded folders, minimize the dirty set per partition, prune the
loaded folder elements, store the new mappings, and report the signal. -/
def updateDiff (st : ProviderState) (diff : List DiffStatus) :
    ProviderState × ChangeSignal :=
  let newMaps := foldDiff st.treeRoot st.repoRoot diff
  let treeRootChanged := newMaps.insideMap.isEmpty != st.filesInsideTreeRoot.isEmpty
  let mustAddOrRemoveRepoRootElement :=
    newMaps.outsideMap.isEmpty != st.filesOutsideTreeRoot.isEmpty
  if treeRootChanged || mustAddOrRemoveRepoRootElement ||
      (!newMaps.insideMap.isEmpty &&
        hasChanged st.filesInsideTreeRoot newMaps.insideMap st.treeRoot) then
    ({ st with
        filesInsideTreeRoot := newMaps.insideMap,
        filesOutsideTreeRoot := newMaps.outsideMap,
        loadedFolderElements := [] },
      ChangeSignal.fullInvalidate)
  else
    let classify := st.loadedFolderElements.foldl
      (fun (acc : List String × List String × List String) folderPath =>
        let isTreeRootSubfolder := jsStartsWith folderPath (st.treeRoot ++ "/")
        let files := if isTreeRootSubfolder then newMaps.insideMap else newMaps.outsideMap
        let oldFiles :=
          if isTreeRootSubfolder then st.filesInsideTreeRoot else st.filesOutsideTreeRoot
        if !mapHas files folderPath then
          acc
        else if hasChanged oldFiles files folderPath then
          if isTreeRootSubfolder then
            (acc.1 ++ [folderPath], acc.2.1 ++ [folderPath], acc.2.2)
          else
            (acc.1 ++ [folderPath], acc.2.1, acc.2.2 ++ [folderPath])
        else
          (acc.1 ++ [folderPath], acc.2.1, acc.2.2))
      ([], [], [])
    let minDirtyFolders :=
      minimizeDirtyFolders classify.2.1 ++ minimizeDirtyFolders classify.2.2
    let loadedKept := classify.1.filter
      (fun loadedFolder =>
        !(minDirtyFolders.any (fun d => jsStartsWith loadedFolder (d ++ "/"))))
    ({ st with
        filesInsideTreeRoot := newMaps.insideMap,
        filesOutsideTreeRoot := newMaps.outsideMap,
        loadedFolderElements := loadedKept },
      ChangeSignal.partInvalidate minDirtyFolders)

/-- Object mode sentinel for a regular file (gitHelper.ts:312). -/
def MODE_REGULAR_FILE : String := "100644"

/-- Object mode sentinel for an absent file (gitHelper.ts:313). -/
def MODE_EMPTY : String := "000000"

/-- Object mode sentinel for a submodule (gitHelper.ts:314). -/
def MODE_SUBMODULE : String := "160000"

/-- Construction of a `DiffStatus` (gitHelper.ts:316-324): absolute path by
joining the repository root, submodule flag from the object modes. -/
def mkDiffStatus (repoRoot : String) (status : StatusCode) (relPath srcMode dstMode : String) :
    DiffStatus :=
  { status := status,
    absPath := pathJoin repoRoot relPath,
    isSubmodule := srcMode == MODE_SUBMODULE || dstMode == MODE_SUBMODULE }

/-- One parsed line of `git diff-index` raw output (gitHelper.ts:358-370):
status letter, path, and the two object modes. -/
structure DiffRecord where
  status : StatusCode
  relPath : String
  srcMode : String
  dstMode : String
deriving DecidableEq

/-- Primary collation weight of a string: case-insensitive code points.
Models the primary strength of the root (default-locale) collation that
JS `String.prototype.localeCompare` applies, restricted to the ASCII
strings appearing here. -/
def collPrimary (s : String) : List Nat := s.data.map (fun c => c.toLower.toNat)

/-- Case (tertiary) collation weight: in the root collation a lowercase
letter sorts before the corresponding uppercase letter. -/
def collCase (s : String) : List Nat := s.data.map (fun c => if c.isUpper then 1 else 0)

/-- Strict lexicographic order on weight lists. -/
def natListLt : List Nat → List Nat → Bool
  | [], [] => false
  | [], _ :: _ => true
  | _ :: _, [] => false
  | a :: as, b :: bs => if a < b then true else if b < a then false else natListLt as bs

/-- Model of `a.localeCompare(b) <= 0` under the default locale (root
collation): compare primary weights first, break ties with the case
weights.  This is the comparator of gitHelper.ts:384
`statuses.sort((s1, s2) => s1.absPath.localeCompare(s2.absPath))`. -/
def localeLe (a b : String) : Bool :=
  natListLt (collPrimary a) (collPrimary b) ||
    (collPrimary a == collPrimary b && !natListLt (collCase b) (collCase a))

/-- The merge performed by `diffIndex` (gitHelper.ts:346-386), with the raw backend output already
parsed: `diffIndexRecords` stands for the parsed `git diff-index` lines
(gitHelper.ts:361-370) and `untrackedLines` for the `git ls-files --others`
lines.  This embeds the merge of the two result sets: build the untracked
statuses, drop every structural entry whose path is also untracked
(untracked wins, gitHelper.ts:376-381), concatenate, and sort by
`localeCompare` on the absolute path (gitHelper.ts:383-384; the JS sort is
stable, modelled by a stable insertion sort under the same comparator). -/
def diffIndex (repoRoot : String) (diffIndexRecords : List DiffRecord)
    (untrackedLines : List String) : List DiffStatus :=
  let diffIndexStatuses := diffIndexRecords.map
    (fun r => mkDiffStatus repoRoot r.status r.relPath r.srcMode r.dstMode)
  let untrackedStatuses := (untrackedLines.filter (fun l => l ≠ "")).map
    (fun line => mkDiffStatus repoRoot StatusCode.U line MODE_EMPTY MODE_REGULAR_FILE)
  let untrackedAbsPaths := untrackedStatuses.map (·.absPath)
  let filteredDiffIndexStatuses := diffIndexStatuses.filter
    (fun status => !(untrackedAbsPaths.contains status.absPath))
  List.insertionSort (fun a b => localeLe a.absPath b.absPath = true)
    (filteredDiffIndexStatuses ++ untrackedStatuses)

/-- A ref as returned by `repository.getRefs()`: the name is optional in the
host git API. -/
structure RefInfo where
  name : Option String
deriving DecidableEq

/-- Result of `repository.getHEAD()`: for a detached HEAD only `commit` is
set, otherwise only `name` (treeProvider.ts:1265-1266). -/
structure HeadInfo where
  name : Option String
  commit : Option String
deriving DecidableEq

/-- A failed backend invocation (a rejected git promise). -/
inductive GitErr where
  | err
deriving DecidableEq

/-- The backend results consumed by one `updateRefs` run, one oracle per
call site: the clock, `getHEAD`, `getBranchCommit`, `getRefs`,
`isCommitExisting` (which catches internally and returns a boolean), the
persisted base ref from `globalState`, `getDefaultBranch`, and
`getMergeBase`. -/
structure RefOracles where
  now : Nat
  head : Except GitErr HeadInfo
  branchCommit : Except GitErr String
  refs : Except GitErr (List RefInfo)
  isCommitExisting : String → Bool
  stored : Option String
  defaultBranch : Except GitErr (Option String)
  mergeBase : Except GitErr String

/-- Model of `isRefExisting` (treeProvider.ts:1199-1203): fetch the refs and
test whether one has the given name. -/
def isRefExisting (o : RefOracles) (refName : String) : Except GitErr Bool := do
  let refs ← o.refs
  pure (refs.any (fun ref => ref.name == some refName))

/-- Model of `getStoredBaseRef` (treeProvider.ts:1186-1197): the persisted
base ref, kept only when it still exists as a ref or a commit. -/
def getStoredBaseRef (o : RefOracles) : Except GitErr (Option String) := do
  match o.stored with
  | none => pure none
  | some b => do
    let ex ← isRefExisting o b
    if ex || o.isCommitExisting b then pure (some b) else pure none

/-- The conventional base-ref names tried for a detached HEAD
(treeProvider.ts:1289). -/
def commonRefs : List String := ["origin/main", "main", "origin/master", "master"]

/-- The predicate of `refs.find(...)` at treeProvider.ts:1290: the ref has a
name and the name is one of the common refs. -/
def isCommonRef (ref : RefInfo) : Bool :=
  match ref.name with
  | some n => commonRefs.contains n
  | none => false

/-- The first half of `updateRefs` (treeProvider.ts:1264-1301): determine the HEAD fields and the base ref.
Every backend failure before the assignments propagates as an error; the
base-ref candidates are tried in source order (explicit argument with
existence check, persisted ref, derived default branch, HEAD branch name,
detached-HEAD fallback over the existing refs, final error). -/
def determineRefs (baseRefArg : Option String) (o : RefOracles) :
    Except GitErr (Option String × String × String) := do
  let HEAD ← o.head
  let headName := HEAD.name
  let headCommit ← match HEAD.commit with
    | some c => pure c
    | none => o.branchCommit
  let baseRef1 : Option String ← match baseRefArg with
    | some b => do
      let ex ← isRefExisting o b
      let ex := ex || o.isCommitExisting b
      pure (if ex then some b else none)
    | none => pure none
  let baseRef2 : Option String ← match baseRef1 with
    | some b => pure (some b)
    | none => getStoredBaseRef o
  let baseRef3 : Option String ← match baseRef2 with
    | some b => pure (some b)
    | none => o.defaultBranch
  let baseRef4 : Option String ← match baseRef3 with
    | some b => pure (some b)
    | none =>
      match headName with
      | some n => pure (some n)
      | none => do
        let refs ← o.refs
        match refs.find? isCommonRef with
        | some ref => pure ref.name
        | none => pure (refs.head?.bind (·.name))
  match baseRef4 with
  | some b => pure (headName, headCommit, b)
  | none => throw GitErr.err

/-- The second half of `updateRefs` (treeProvider.ts:1302-1331): with the base ref fixed, compute the merge
base (skipped in full-diff mode or when the base ref is the HEAD branch;
a failing `getMergeBase` is swallowed and the base ref used directly),
clear the checkbox states when the HEAD ref changed, and assign all
comparison-state fields together, persisting the base ref. -/
def assignRefs (st : ProviderState) (o : RefOracles) (headName : Option String)
    (headCommit baseRef : String) : ProviderState :=
  let mergeBase :=
    if !st.fullDiff && (some baseRef != headName) then
      match o.mergeBase with
      | Except.ok m => m
      | Except.error _ => baseRef
    else baseRef
  let checkboxStates := if st.headName != headName then [] else st.checkboxStates
  { st with
      headLastChecked := o.now,
      headName := headName,
      headCommit := headCommit,
      baseRef := some baseRef,
      mergeBase := mergeBase,
      storedBaseRef := some baseRef,
      checkboxStates := checkboxStates }

/-- Model of `updateRefs` (treeProvider.ts:1260-1335): run the ref determination and,
on success, the assignment block.  In the source every mutation of the
provider state happens after the last possible throw, so a failed run
leaves the state exactly as it was; the pair returned here is the state
after the call together with the error, if any. -/
def updateRefs (st : ProviderState) (baseRefArg : Option String) (o : RefOracles) :
    ProviderState × Option GitErr :=
  match determineRefs baseRefArg o with
  | Except.ok (headName, headCommit, baseRef) =>
    (assignRefs st o headName headCommit baseRef, none)
  | Except.error e => (st, some e)

/-- The base-ref choice the specification states for the detached-HEAD
fallback: try `origin/main`, `main`, `origin/master`, `master` in that
order among the existing refs, else the first ref returned by the
backend. -/
def specPreferredRef (refs : List RefInfo) : Option String :=
  match commonRefs.find? (fun n => refs.any (fun r => r.name == some n)) with
  | some n => some n
  | none => refs.head?.bind (·.name)

/-- The action body of `promptChangeBase` (treeProvider.ts:1877-1902) once a
new base ref was chosen: no-op when the base is unchanged; on `updateRefs`
failure show a message and keep the tree; on success run `updateDiff`
without change events (the new mappings replace the old ones), and if that
diff step fails clear both mappings; in both of the latter cases fire one
full refresh event afterwards. -/
def promptChangeBase (st : ProviderState) (baseRef : String) (o : RefOracles)
    (diffResult : Except GitErr (List DiffStatus)) : ProviderState × List ChangeSignal :=
  if st.baseRef == some baseRef then (st, [])
  else
    match updateRefs st (some baseRef) o with
    | (st1, some _) => (st1, [])
    | (st1, none) =>
      match diffResult with
      | Except.ok diff =>
        let maps := foldDiff st1.treeRoot st1.repoRoot diff
        ({ st1 with
            filesInsideTreeRoot := maps.insideMap,
            filesOutsideTreeRoot := maps.outsideMap },
          [ChangeSignal.fullInvalidate])
      | Except.error _ =>
        ({ st1 with
            filesInsideTreeRoot := [],
            filesOutsideTreeRoot := [] },
          [ChangeSignal.fullInvalidate])

/-- The partition root `foldStep` walks up to for a given entry: the tree
root when the entry's containing folder is at or below the tree root, the
repository root otherwise (treeProvider.ts:1353-1355). -/
def partitionRoot (treeRoot repoRoot : String) (e : DiffStatus) : String :=
  let folder := dirname e.absPath
  if folder == treeRoot || jsStartsWith folder (treeRoot ++ "/") then treeRoot else repoRoot

/-- A modified file inside the tree root, used by the concrete runs below. -/
def entryM : DiffStatus := ⟨StatusCode.M, "/repo/src/a.ts", false⟩

/-- The same file as `entryM` with only its status changed to added. -/
def entryA : DiffStatus := ⟨StatusCode.A, "/repo/src/a.ts", false⟩

/-- An added file in a nested folder, used by the concrete runs below. -/
def entryB : DiffStatus := ⟨StatusCode.A, "/repo/src/pkg/b.ts", false⟩

/-- A neutral provider state over the repository root `/repo` with empty
mappings and no comparison state yet. -/
def baseState : ProviderState :=
  { treeRoot := "/repo", repoRoot := "/repo",
    filesInsideTreeRoot := [], filesOutsideTreeRoot := [],
    loadedFolderElements := [],
    fullDiff := true, headLastChecked := 0, headName := none, headCommit := "",
    baseRef := none, mergeBase := "", storedBaseRef := none, checkboxStates := [] }

/-- The provider state after folding `[entryM]` with the folder
`/repo/src` materialized by the consumer. -/
def demoState : ProviderState :=
  { baseState with
      filesInsideTreeRoot := (foldDiff "/repo" "/repo" [entryM]).insideMap,
      filesOutsideTreeRoot := (foldDiff "/repo" "/repo" [entryM]).outsideMap,
      loadedFolderElements := ["/repo/src"] }

/-- Backend oracles for a detached HEAD with no stored or derivable default
base ref, where the backend lists `master` before `origin/main`. -/
def detachedOracles : RefOracles :=
  { now := 1, head := Except.ok ⟨none, some "c0"⟩,
    branchCommit := Except.error GitErr.err,
    refs := Except.ok [⟨some "master"⟩, ⟨some "origin/main"⟩],
    isCommitExisting := fun _ => false, stored := none,
    defaultBranch := Except.ok none, mergeBase := Except.error GitErr.err }

/-- Backend oracles whose HEAD lookup fails (the first awaited call of
`updateRefs` rejects). -/
def headFailOracles : RefOracles :=
  { now := 1, head := Except.error GitErr.err,
    branchCommit := Except.error GitErr.err,
    refs := Except.error GitErr.err,
    isCommitExisting := fun _ => false, stored := none,
    defaultBranch := Except.error GitErr.err, mergeBase := Except.error GitErr.err }

/-- Backend oracles for a successful resolution: HEAD on branch `feature`,
the ref `main` existing, and a merge base `mb`. -/
def successOracles : RefOracles :=
  { now := 2, head := Except.ok ⟨some "feature", none⟩,
    branchCommit := Except.ok "h1",
    refs := Except.ok [⟨some "feature"⟩, ⟨some "main"⟩],
    isCommitExisting := fun _ => false, stored := none,
    defaultBranch := Except.ok none, mergeBase := Except.ok "mb" }

/-- Closure property of one partition mapping: every stored entry has its
ancestor chain up to and including the partition root present as keys, and
a non-empty mapping contains its root key. -/
def chainClosed (root : String) (m : List (String × List DiffStatus)) : Prop :=
  (∀ kv ∈ m, ∀ e ∈ kv.2,
    ∀ a ∈ chainTo root (dirname e.absPath) (dirname e.absPath).length,
      mapHas m a = true) ∧
    (m ≠ [] → mapHas m root = true)

/-- The neutral state in merge-base diff mode. -/
def mergeModeState : ProviderState := { baseState with fullDiff := false }

end GitTreeCompare

namespace GitTreeCompare

theorem updateDiff_insideMap (st : ProviderState) (diff : List DiffStatus) :
    (updateDiff st diff).1.filesInsideTreeRoot
      = (foldDiff st.treeRoot st.repoRoot diff).insideMap := by
  unfold updateDiff
  dsimp only
  split <;> rfl

theorem updateDiff_outsideMap (st : ProviderState) (diff : List DiffStatus) :
    (updateDiff st diff).1.filesOutsideTreeRoot
      = (foldDiff st.treeRoot st.repoRoot diff).outsideMap := by
  unfold updateDiff
  dsimp only
  split <;> rfl

theorem updateDiff_treeRoot (st : ProviderState) (diff : List DiffStatus) :
    (updateDiff st diff).1.treeRoot = st.treeRoot := by
  unfold updateDiff
  dsimp only
  split <;> rfl

theorem updateDiff_repoRoot (st : ProviderState) (diff : List DiffStatus) :
    (updateDiff st diff).1.repoRoot = st.repoRoot := by
  unfold updateDiff
  dsimp only
  split <;> rfl

/-- C9: folding is deterministic and idempotent.  The mappings `updateDiff`
stores are the fold of the entry list over the tree and repository roots
alone; re-running it on the same entry list from the state it produced
yields structurally identical inside and outside mappings (the association
lists agree key for key and entry for entry, in the same order). -/
theorem fold_idempotent (st : ProviderState) (diff : List DiffStatus) :
    (updateDiff (updateDiff st diff).1 diff).1.filesInsideTreeRoot
        = (updateDiff st diff).1.filesInsideTreeRoot ∧
      (updateDiff (updateDiff st diff).1 diff).1.filesOutsideTreeRoot
        = (updateDiff st diff).1.filesOutsideTreeRoot := by
  constructor
  · rw [updateDiff_insideMap, updateDiff_insideMap, updateDiff_treeRoot, updateDiff_repoRoot]
  · rw [updateDiff_outsideMap, updateDiff_outsideMap, updateDiff_treeRoot, updateDiff_repoRoot]

/-- C1 (evidence of the code bug): between two consecutive folds in which
only the status of the single leaf file `/repo/src/a.ts` changed (from
modified in `entryM` to added in `entryA`), with its parent `/repo/src`
among the loaded folder elements, the reconciliation of the earlier
revision reports no dirty folder at all: `hasChanged` compares only
`f.absPath` lists (treeProvider.ts:407-408), so the status-only change is
invisible and the emitted partial invalidation is empty rather than the
claimed singleton `{/repo/src}`. -/
theorem updateDiff_status_only_change_no_event :
    (updateDiff demoState [entryA]).2 = ChangeSignal.partInvalidate [] ∧
      ChangeSignal.partInvalidate [] ≠ ChangeSignal.partInvalidate ["/repo/src"] ∧
      (updateDiff demoState [entryA]).2 ≠ ChangeSignal.fullInvalidate := by
  decide

/-- C2 (counterexample): with the single dirty folder `/repo/src`, the
specification's greedy minimal set keeps `/repo/src`, but the source's loop
(treeProvider.ts:446-452) starts from the empty last-added folder, so the
test `dirtyFolder.startsWith('' + path.sep)` holds for every absolute POSIX
path and the emitted set is empty. -/
theorem minimizeDirtyFolders_counterexample :
    minimizeDirtyFolders ["/repo/src"] = [] ∧
      specMinimalDirtySet ["/repo/src"] = ["/repo/src"] ∧
      minimizeDirtyFolders ["/repo/src"] ≠ specMinimalDirtySet ["/repo/src"] := by
  decide

theorem keepNonDescendant_root_all (l : List String)
    (h : ∀ p ∈ l, jsStartsWith p "/" = true) : keepNonDescendant "" l = [] := by
  induction l with
  | nil => rfl
  | cons p rest ih =>
    have hp := h p (List.mem_cons_self p rest)
    unfold keepNonDescendant
    rw [show ("" ++ "/" : String) = "/" from rfl, hp]
    exact ih (fun q hq => h q (List.mem_cons_of_mem p hq))

/-- C2 (amended): the source sorts the dirty folders lexicographically but
keeps a candidate only when it does not extend `lastAddedFolder + path.sep`
for the most recently kept folder, which starts as the empty string; since
every absolute POSIX dirty folder starts with the separator, nothing is
ever kept and the emitted minimal dirty set is empty (vacuously, no two
emitted paths are in a descendant relation). -/
theorem minimizeDirtyFolders_posix_empty (dirty : List String)
    (h : ∀ p ∈ dirty, jsStartsWith p "/" = true) :
    minimizeDirtyFolders dirty = [] := by
  unfold minimizeDirtyFolders jsSortStrings
  apply keepNonDescendant_root_all
  intro p hp
  exact h p ((List.perm_insertionSort _ dirty).mem_iff.mp hp)

theorem minimizeDirtyFolders_posix_empty_witness :
    minimizeDirtyFolders ["/a"] = [] :=
  minimizeDirtyFolders_posix_empty ["/a"] (by decide)

/-- C6 (counterexample): detached HEAD, no explicit, persisted or derived
default base ref, and the backend returns the refs in the order
`[master, origin/main]`.  The source picks the first listed common ref
(`master`, treeProvider.ts:1290), while the claimed preference order
`origin/main, main, origin/master, master` would pick `origin/main`. -/
theorem updateRefs_detached_order_counterexample :
    (updateRefs baseState none detachedOracles).1.baseRef = some "master" ∧
      specPreferredRef [⟨some "master"⟩, ⟨some "origin/main"⟩] = some "origin/main" ∧
      (some "master" : Option String) ≠ some "origin/main" := by
  decide

/-- C10: ref resolution is atomic on error.  When any step of `updateRefs`
fails (HEAD lookup, ref existence check, stored-ref read, default-branch
derivation, or the final no-ref-found error), none of the comparison-state
fields is modified and the persisted base ref is not updated: in the source
all assignments (treeProvider.ts:1326-1331) come after the last possible
throw. -/
theorem updateRefs_error_atomic (st : ProviderState) (arg : Option String)
    (o : RefOracles) (st' : ProviderState) (e : GitErr)
    (h : updateRefs st arg o = (st', some e)) :
    st'.headLastChecked = st.headLastChecked ∧ st'.headName = st.headName ∧
      st'.headCommit = st.headCommit ∧ st'.baseRef = st.baseRef ∧
      st'.mergeBase = st.mergeBase ∧ st'.storedBaseRef = st.storedBaseRef := by
  unfold updateRefs at h
  cases hd : determineRefs arg o with
  | ok v =>
    rw [hd] at h
    simp [Prod.mk.injEq] at h
  | error e2 =>
    rw [hd] at h
    injection h with h1 h2
    subst h1
    exact ⟨rfl, rfl, rfl, rfl, rfl, rfl⟩

theorem updateRefs_error_atomic_witness :
    baseState.headLastChecked = baseState.headLastChecked ∧
      baseState.headName = baseState.headName ∧
      baseState.headCommit = baseState.headCommit ∧
      baseState.baseRef = baseState.baseRef ∧
      baseState.mergeBase = baseState.mergeBase ∧
      baseState.storedBaseRef = baseState.storedBaseRef :=
  updateRefs_error_atomic baseState none headFailOracles baseState GitErr.err rfl

end GitTreeCompare

namespace GitTreeCompare

theorem except_ok_bind (a : α) (f : α → Except ε β) :
    (Except.ok a : Except ε α) >>= f = f a := rfl

theorem except_pure_bind (a : α) (f : α → Except ε β) :
    (pure a : Except ε α) >>= f = f a := rfl

/-- C6 (amended): for a detached HEAD with no explicit, persisted, or
derived default base ref and a backend whose refs all carry names,
resolution picks the first ref in the backend's own order whose name is one
of `origin/main`, `main`, `origin/master`, `master` (not the first name in
that list which exists), otherwise the first ref returned by the backend,
and it fails exactly when the repository has zero refs. -/
theorem updateRefs_detached_fallback (st : ProviderState) (o : RefOracles)
    (refs : List RefInfo) (c : String)
    (hrefs : o.refs = Except.ok refs)
    (hnamed : ∀ r ∈ refs, r.name.isSome)
    (hhead : o.head = Except.ok ⟨none, some c⟩)
    (hstored : o.stored = none)
    (hdefault : o.defaultBranch = Except.ok none) :
    ((updateRefs st none o).2 = none ↔ refs ≠ []) ∧
      (∀ r, refs.find? isCommonRef = some r →
        (updateRefs st none o).1.baseRef = r.name) ∧
      (refs.find? isCommonRef = none → ∀ r0 rest, refs = r0 :: rest →
        (updateRefs st none o).1.baseRef = r0.name) := by
  obtain ⟨onow, ohead, obc, orefs, oic, ostored, odefb, omb⟩ := o
  simp only at hrefs hhead hstored hdefault
  subst hrefs hhead hstored hdefault
  unfold updateRefs determineRefs getStoredBaseRef
  simp only [except_ok_bind, except_pure_bind]
  cases hfind : refs.find? isCommonRef with
  | some ref =>
    have hmem2 := List.mem_of_find?_eq_some hfind
    obtain ⟨n, hn⟩ := Option.isSome_iff_exists.mp (hnamed ref hmem2)
    dsimp only
    rw [hn]
    dsimp only [pure, Except.pure]
    refine ⟨⟨fun _ hrefs0 => by subst hrefs0; simp at hfind, fun _ => rfl⟩, ?_, ?_⟩
    · intro r hr
      injection hr with hr
      subst hr
      simp [assignRefs, hn]
    · intro hnone
      exact absurd hnone (by simp)
  | none =>
    cases refs with
    | nil =>
      dsimp only [List.head?, Option.bind]
      refine ⟨⟨fun h => by simp at h, fun h => absurd rfl h⟩, ?_, ?_⟩
      · intro r hr
        simp at hr
      · intro _ r0 rest h
        exact absurd h (by simp)
    | cons r0 rest =>
      obtain ⟨n, hn⟩ := Option.isSome_iff_exists.mp (hnamed r0 (List.mem_cons_self r0 rest))
      dsimp only [List.head?, Option.bind]
      rw [hn]
      dsimp only [pure, Except.pure]
      refine ⟨⟨fun _ => by simp, fun _ => rfl⟩, ?_, ?_⟩
      · intro r hr
        simp at hr
      · intro _ r1 rest1 h
        injection h with h1 h2
        subst h1
        simp [assignRefs, hn]

theorem updateRefs_detached_fallback_witness :
    (updateRefs baseState none detachedOracles).2 = none ∧
      (updateRefs baseState none detachedOracles).1.baseRef = some "master" := by
  have h := updateRefs_detached_fallback baseState detachedOracles
    [⟨some "master"⟩, ⟨some "origin/main"⟩] "c0" rfl (by decide) rfl rfl rfl
  exact ⟨h.1.mpr (by simp), h.2.1 ⟨some "master"⟩ (by decide)⟩

theorem updateRefs_error_state (st : ProviderState) (arg : Option String)
    (o : RefOracles) (st1 : ProviderState) (e : GitErr)
    (h : updateRefs st arg o = (st1, some e)) : st1 = st := by
  unfold updateRefs at h
  cases hd : determineRefs arg o with
  | ok v =>
    rw [hd] at h
    simp [Prod.mk.injEq] at h
  | error e2 =>
    rw [hd] at h
    injection h with h1 h2
    exact h1.symm

/-- C7: once the base ref is fixed by a successful resolution, the stored
merge base equals the base ref in full-diff mode or when the base ref is
HEAD's branch name; otherwise it is the backend merge base, falling back to
the base ref itself when that computation fails — and a merge-base failure
alone never makes the resolution fail. -/
theorem updateRefs_mergeBase_characterization (st : ProviderState)
    (arg : Option String) (o : RefOracles) (st' : ProviderState) (b : String)
    (h : updateRefs st arg o = (st', none)) (hb : st'.baseRef = some b) :
    ((st.fullDiff = true ∨ st'.headName = some b) → st'.mergeBase = b) ∧
      (st.fullDiff = false → st'.headName ≠ some b →
        st'.mergeBase = (match o.mergeBase with
          | Except.ok m => m
          | Except.error _ => b)) ∧
      (∀ u, (updateRefs st arg { o with mergeBase := Except.error u }).2 = none) := by
  unfold updateRefs at h
  cases hd : determineRefs arg o with
  | error e =>
    rw [hd] at h
    simp [Prod.mk.injEq] at h
  | ok v =>
    obtain ⟨hn, hc, b0⟩ := v
    rw [hd] at h
    injection h with h1 h2
    subst h1
    have hb0 : b0 = b := by simpa [assignRefs] using hb
    subst hb0
    refine ⟨?_, ?_, ?_⟩
    · rintro (hfd | hhn)
      · simp [assignRefs, hfd]
      · have hhn' : hn = some b0 := by simpa [assignRefs] using hhn
        simp [assignRefs, hhn']
    · intro hfd hne
      have hn' : hn ≠ some b0 := by
        intro hh
        apply hne
        simpa [assignRefs] using hh
      have hbne : (some b0 != hn) = true := by
        simp only [bne_iff_ne, ne_eq]
        exact fun hh => hn' hh.symm
      simp [assignRefs, hfd, hbne]
    · intro u
      unfold updateRefs
      rw [show determineRefs arg { o with mergeBase := Except.error u }
            = determineRefs arg o from rfl, hd]

theorem updateRefs_mergeBase_characterization_witness :
    (updateRefs mergeModeState (some "main") successOracles).1.mergeBase = "mb" ∧
      (updateRefs mergeModeState (some "main")
        { successOracles with mergeBase := Except.error GitErr.err }).2 = none := by
  have h := updateRefs_mergeBase_characterization mergeModeState (some "main")
    successOracles (updateRefs mergeModeState (some "main") successOracles).1 "main"
    (by decide) (by decide)
  exact ⟨h.2.1 rfl (by decide), h.2.2 GitErr.err⟩

/-- C8: in the explicit change-base action, a failed ref resolution leaves
the previous tree mappings untouched (and fires no event), while a
successful resolution followed by a failed diff step clears both folder
mappings to empty before the single full-refresh event is emitted. -/
theorem promptChangeBase_error_handling (st : ProviderState) (b : String)
    (o : RefOracles) (diffResult : Except GitErr (List DiffStatus))
    (hne : st.baseRef ≠ some b) :
    (∀ st1 e, updateRefs st (some b) o = (st1, some e) →
      (promptChangeBase st b o diffResult).1.filesInsideTreeRoot
          = st.filesInsideTreeRoot ∧
        (promptChangeBase st b o diffResult).1.filesOutsideTreeRoot
          = st.filesOutsideTreeRoot ∧
        (promptChangeBase st b o diffResult).2 = []) ∧
      (∀ st1 e, updateRefs st (some b) o = (st1, none) →
        diffResult = Except.error e →
        (promptChangeBase st b o diffResult).1.filesInsideTreeRoot = [] ∧
          (promptChangeBase st b o diffResult).1.filesOutsideTreeRoot = [] ∧
          (promptChangeBase st b o diffResult).2 = [ChangeSignal.fullInvalidate]) := by
  have hif : ¬((st.baseRef == some b) = true) := by
    simp only [beq_iff_eq]
    exact fun hh => hne hh
  constructor
  · intro st1 e h
    have hst1 : st1 = st := updateRefs_error_state st (some b) o st1 e h
    subst hst1
    unfold promptChangeBase
    rw [if_neg hif, h]
    exact ⟨rfl, rfl, rfl⟩
  · intro st1 e h hdr
    subst hdr
    unfold promptChangeBase
    rw [if_neg hif, h]
    exact ⟨rfl, rfl, rfl⟩

theorem promptChangeBase_error_handling_witness :
    ((promptChangeBase baseState "main" headFailOracles
        (Except.ok [])).1.filesInsideTreeRoot = baseState.filesInsideTreeRoot ∧
      (promptChangeBase baseState "main" headFailOracles (Except.ok [])).2 = []) ∧
      ((promptChangeBase mergeModeState "main" successOracles
          (Except.error GitErr.err)).1.filesInsideTreeRoot = [] ∧
        (promptChangeBase mergeModeState "main" successOracles
          (Except.error GitErr.err)).2 = [ChangeSignal.fullInvalidate]) := by
  have h1 := promptChangeBase_error_handling baseState "main" headFailOracles
    (Except.ok []) (by decide)
  have h2 := promptChangeBase_error_handling mergeModeState "main" successOracles
    (Except.error GitErr.err) (by decide)
  have ha := h1.1 baseState GitErr.err rfl
  have hb := h2.2 (updateRefs mergeModeState (some "main") successOracles).1
    GitErr.err (by decide) rfl
  exact ⟨⟨ha.1, ha.2.2⟩, ⟨hb.1, hb.2.2⟩⟩

end GitTreeCompare

namespace GitTreeCompare

theorem natListLt_asymm (a : List Nat) : ∀ b, natListLt a b = true → natListLt b a = false := by
  induction a with
  | nil =>
    intro b h
    cases b with
    | nil => simp [natListLt] at h
    | cons y ys => simp [natListLt]
  | cons x xs ih =>
    intro b h
    cases b with
    | nil => simp [natListLt] at h
    | cons y ys =>
      unfold natListLt at h ⊢
      rcases Nat.lt_trichotomy x y with hlt | heq | hgt
      · simp [hlt, Nat.lt_asymm hlt]
      · subst heq
        simp [Nat.lt_irrefl] at h ⊢
        exact ih ys h
      · simp [hgt, Nat.lt_asymm hgt] at h

theorem natListLt_trans (a : List Nat) : ∀ b c, natListLt a b = true → natListLt b c = true →
    natListLt a c = true := by
  induction a with
  | nil =>
    intro b c h1 h2
    cases c with
    | nil =>
      cases b with
      | nil => simp [natListLt] at h1
      | cons y ys => simp [natListLt] at h2
    | cons z zs => simp [natListLt]
  | cons x xs ih =>
    intro b c h1 h2
    cases b with
    | nil => simp [natListLt] at h1
    | cons y ys =>
      cases c with
      | nil => simp [natListLt] at h2
      | cons z zs =>
        unfold natListLt at h1 h2 ⊢
        rcases Nat.lt_trichotomy x y with hxy | hxy | hxy
        · rcases Nat.lt_trichotomy y z with hyz | hyz | hyz
          · simp [Nat.lt_trans hxy hyz]
          · subst hyz
            simp [hxy]
          · simp [hyz, Nat.lt_asymm hyz] at h2
        · subst hxy
          rcases Nat.lt_trichotomy x z with hyz | hyz | hyz
          · simp [hyz]
          · subst hyz
            simp [Nat.lt_irrefl] at h1 h2 ⊢
            exact ih ys zs h1 h2
          · simp [hyz, Nat.lt_asymm hyz] at h2
        · simp [hxy, Nat.lt_asymm hxy] at h1

theorem natListLt_eq_of_not (a : List Nat) : ∀ b, natListLt a b = false → natListLt b a = false →
    a = b := by
  induction a with
  | nil =>
    intro b h1 _
    cases b with
    | nil => rfl
    | cons y ys => simp [natListLt] at h1
  | cons x xs ih =>
    intro b h1 h2
    cases b with
    | nil => simp [natListLt] at h2
    | cons y ys =>
      unfold natListLt at h1 h2
      rcases Nat.lt_trichotomy x y with hxy | hxy | hxy
      · simp [hxy] at h1
      · subst hxy
        simp [Nat.lt_irrefl] at h1 h2
        rw [ih ys h1 h2]
      · simp [hxy, Nat.lt_asymm hxy] at h2

theorem natListLt_not_lt_trans (x y z : List Nat) (h1 : natListLt y x = false)
    (h2 : natListLt z y = false) : natListLt z x = false := by
  by_contra hc
  rw [Bool.not_eq_false] at hc
  cases hyz : natListLt y z with
  | true =>
    have := natListLt_trans y z x hyz hc
    rw [this] at h1
    exact Bool.noConfusion h1
  | false =>
    have heq := natListLt_eq_of_not y z hyz h2
    subst heq
    rw [hc] at h1
    exact Bool.noConfusion h1

theorem localeLe_total (a b : String) : localeLe a b = true ∨ localeLe b a = true := by
  unfold localeLe
  by_cases hab : natListLt (collPrimary a) (collPrimary b) = true
  · left
    simp [hab]
  · by_cases hba : natListLt (collPrimary b) (collPrimary a) = true
    · right
      simp [hba]
    · have hab' : natListLt (collPrimary a) (collPrimary b) = false := by
        simpa using hab
      have hba' : natListLt (collPrimary b) (collPrimary a) = false := by
        simpa using hba
      have heq : collPrimary a = collPrimary b := natListLt_eq_of_not _ _ hab' hba'
      by_cases hc : natListLt (collCase b) (collCase a) = true
      · right
        have hca : natListLt (collCase a) (collCase b) = false := natListLt_asymm _ _ hc
        simp [heq, hba', hca]
      · left
        simp [heq, hab', Bool.not_eq_true] at hc ⊢
        simp [hc]

theorem localeLe_trans (a b c : String) (h1 : localeLe a b = true)
    (h2 : localeLe b c = true) : localeLe a c = true := by
  simp only [localeLe, Bool.or_eq_true, Bool.and_eq_true, beq_iff_eq,
    Bool.not_eq_true'] at h1 h2 ⊢
  rcases h1 with h1 | ⟨h1e, h1c⟩
  · rcases h2 with h2 | ⟨h2e, h2c⟩
    · exact Or.inl (natListLt_trans _ _ _ h1 h2)
    · exact Or.inl (h2e ▸ h1)
  · rcases h2 with h2 | ⟨h2e, h2c⟩
    · exact Or.inl (h1e ▸ h2)
    · exact Or.inr ⟨h1e.trans h2e, natListLt_not_lt_trans _ _ _ h1c h2c⟩

/-- C5 (amended): the list returned by the diff fetch is ordered by
destination (absolute) path ascending under the locale-aware
`localeCompare` comparison the source actually uses (gitHelper.ts:384),
modelled here as root-collation order, which is not the locale-independent
byte/codepoint ordering. -/
theorem diffIndex_sorted_by_localeCompare (root : String) (rs : List DiffRecord)
    (us : List String) :
    List.Sorted (fun a b : DiffStatus => localeLe a.absPath b.absPath = true)
      (diffIndex root rs us) := by
  unfold diffIndex
  haveI : IsTotal DiffStatus (fun a b : DiffStatus => localeLe a.absPath b.absPath = true) :=
    ⟨fun s t => localeLe_total s.absPath t.absPath⟩
  haveI : IsTrans DiffStatus (fun a b : DiffStatus => localeLe a.absPath b.absPath = true) :=
    ⟨fun s t u h1 h2 => localeLe_trans _ _ _ h1 h2⟩
  exact List.sorted_insertionSort _ _

/-- C5 (counterexample): with backend result sets containing the tracked
file `B` and the untracked file `a`, the merged list comes out in the order
`[/r/a, /r/B]`, which is not ascending under the stable locale-independent
byte/codepoint ordering (there `/r/B` precedes `/r/a`). -/
theorem diffIndex_not_codepoint_sorted :
    ((diffIndex "/r" [⟨StatusCode.M, "B", "100644", "100644"⟩] ["a"]).map (·.absPath)
        = ["/r/a", "/r/B"]) ∧
      ¬ List.Pairwise (fun a b => codepointLe a b = true) ["/r/a", "/r/B"] := by
  decide

end GitTreeCompare

namespace GitTreeCompare

theorem pathJoin_inj (root : String) : Function.Injective (pathJoin root) := by
  intro a b h
  unfold pathJoin at h
  have h2 := congrArg String.data h
  simp only [String.data_append] at h2
  have h3 := List.append_cancel_left h2
  cases a
  cases b
  exact congrArg String.mk (by simpa using h3)

theorem filter_map_eq_singleton (f : α → String) (l : List α) (p : String)
    (hnd : (l.map f).Nodup) (hp : p ∈ l.map f) :
    ∃ u, u ∈ l ∧ f u = p ∧ l.filter (fun s => f s == p) = [u] := by
  induction l with
  | nil => simp at hp
  | cons x xs ih =>
    simp only [List.map_cons, List.nodup_cons] at hnd
    obtain ⟨hx, hxs⟩ := hnd
    by_cases hfx : f x = p
    · refine ⟨x, List.mem_cons_self x xs, hfx, ?_⟩
      rw [List.filter_cons_of_pos (by simp [hfx])]
      have : xs.filter (fun s => f s == p) = [] := by
        rw [List.filter_eq_nil_iff]
        intro s hs
        simp only [beq_iff_eq]
        intro hsp
        exact hx (by rw [hfx, ← hsp]; exact List.mem_map_of_mem f hs)
      rw [this]
    · have hp' : p ∈ xs.map f := by
        rcases List.mem_cons.mp hp with h | h
        · exact absurd h.symm hfx
        · exact h
      obtain ⟨u, hu, hfu, heq⟩ := ih hxs hp'
      refine ⟨u, List.mem_cons_of_mem x hu, hfu, ?_⟩
      rw [List.filter_cons_of_neg (by simp [hfx])]
      exact heq

/-- C3: untracked wins.  For raw backend result sets with distinct paths,
every path reported both by the structural comparison and the untracked
enumeration appears in the merged diff exactly once, with status Untracked,
and no destination path appears more than once in the merged result. -/
theorem diffIndex_untracked_wins (root : String) (rs : List DiffRecord)
    (us : List String)
    (hd : (rs.map (·.relPath)).Nodup)
    (hu : (us.filter (fun l => l ≠ "")).Nodup) :
    ((diffIndex root rs us).map (·.absPath)).Nodup ∧
      (∀ p, p ∈ rs.map (fun r => pathJoin root r.relPath) →
        p ∈ (us.filter (fun l => l ≠ "")).map (pathJoin root) →
        ((diffIndex root rs us).filter (fun s => s.absPath == p)).map (·.status)
          = [StatusCode.U]) := by
  set uts := (us.filter (fun l => l ≠ "")).map
    (fun line => mkDiffStatus root StatusCode.U line MODE_EMPTY MODE_REGULAR_FILE) with huts
  set dis := rs.map (fun r => mkDiffStatus root r.status r.relPath r.srcMode r.dstMode) with hdis
  set fts := dis.filter (fun s => !((uts.map (·.absPath)).contains s.absPath)) with hfts
  have hform : diffIndex root rs us = List.insertionSort
      (fun a b : DiffStatus => localeLe a.absPath b.absPath = true) (fts ++ uts) := rfl
  have huabs : uts.map (·.absPath) = (us.filter (fun l => l ≠ "")).map (pathJoin root) := by
    rw [huts, List.map_map]
    rfl
  have hdabs : dis.map (·.absPath) = (rs.map (·.relPath)).map (pathJoin root) := by
    rw [hdis, List.map_map, List.map_map]
    rfl
  have hund : (uts.map (·.absPath)).Nodup := by
    rw [huabs]
    exact hu.map (pathJoin_inj root)
  have hdnd : (dis.map (·.absPath)).Nodup := by
    rw [hdabs]
    exact hd.map (pathJoin_inj root)
  have hperm := List.perm_insertionSort
    (fun a b : DiffStatus => localeLe a.absPath b.absPath = true) (fts ++ uts)
  have hfmem : ∀ s ∈ fts, s.absPath ∉ uts.map (·.absPath) := by
    intro s hs hmem
    have h2 := (List.mem_filter.mp hs).2
    have h3 : (uts.map (·.absPath)).contains s.absPath = true := List.elem_iff.mpr hmem
    rw [h3] at h2
    exact Bool.noConfusion h2
  constructor
  · rw [hform, (hperm.map (·.absPath)).nodup_iff, List.map_append]
    refine List.Nodup.append ?_ hund ?_
    · exact ((List.filter_sublist dis).map (·.absPath)).nodup hdnd
    · intro x hx1 hx2
      obtain ⟨s, hs, rfl⟩ := List.mem_map.mp hx1
      exact hfmem s hs hx2
  · intro p hp1 hp2
    have hpu : p ∈ uts.map (·.absPath) := by
      rw [huabs]
      exact hp2
    obtain ⟨u, humem, hueq, hufil⟩ :=
      filter_map_eq_singleton (·.absPath) uts p hund hpu
    have hffil : fts.filter (fun s => s.absPath == p) = [] := by
      rw [List.filter_eq_nil_iff]
      intro s hs
      simp only [beq_iff_eq]
      intro hsp
      exact hfmem s hs (hsp ▸ hpu)
    have hq := hperm.filter (fun s => s.absPath == p)
    rw [List.filter_append, hffil, hufil, List.nil_append] at hq
    rw [hform, List.perm_singleton.mp hq, List.map_singleton]
    obtain ⟨line, _, rfl⟩ := List.mem_map.mp humem
    rfl

end GitTreeCompare

namespace GitTreeCompare

theorem mapHas_iff (m : List (String × α)) (k : String) :
    mapHas m k = true ↔ ∃ p ∈ m, p.1 = k := by
  simp [mapHas, List.any_eq_true]

theorem mapHas_mapSet_self (m : List (String × α)) (k : String) (v : α) :
    mapHas (mapSet m k v) k = true := by
  unfold mapSet
  split
  · next hhas =>
    obtain ⟨p, hp, hp1⟩ := (mapHas_iff m k).mp hhas
    refine (mapHas_iff _ k).mpr ⟨(k, v), ?_, rfl⟩
    have h4 : (if p.1 == k then (k, v) else p)
        ∈ List.map (fun q => if q.1 == k then (k, v) else q) m :=
      List.mem_map_of_mem _ hp
    rw [show (if p.1 == k then (k, v) else p) = (k, v) from by simp [hp1]] at h4
    exact h4
  · exact (mapHas_iff _ k).mpr ⟨(k, v), List.mem_append_right _ (List.mem_singleton.mpr rfl), rfl⟩

theorem mapHas_mapSet_mono (m : List (String × α)) (k : String) (v : α) (a : String)
    (h : mapHas m a = true) : mapHas (mapSet m k v) a = true := by
  obtain ⟨p, hp, hp1⟩ := (mapHas_iff m a).mp h
  unfold mapSet
  split
  · by_cases hpk : p.1 = k
    · refine (mapHas_iff _ a).mpr ⟨(k, v), ?_, by rw [← hpk, hp1]⟩
      have h4 : (if p.1 == k then (k, v) else p)
          ∈ List.map (fun q => if q.1 == k then (k, v) else q) m :=
        List.mem_map_of_mem _ hp
      rw [show (if p.1 == k then (k, v) else p) = (k, v) from by simp [hpk]] at h4
      exact h4
    · refine (mapHas_iff _ a).mpr ⟨p, ?_, hp1⟩
      have h4 : (if p.1 == k then (k, v) else p)
          ∈ List.map (fun q => if q.1 == k then (k, v) else q) m :=
        List.mem_map_of_mem _ hp
      rw [show (if p.1 == k then (k, v) else p) = p from by simp [hpk]] at h4
      exact h4
  · exact (mapHas_iff _ a).mpr ⟨p, List.mem_append_left _ hp, hp1⟩

theorem mem_mapSet (m : List (String × α)) (k : String) (v : α) (kv : String × α)
    (h : kv ∈ mapSet m k v) : kv ∈ m ∨ kv = (k, v) := by
  unfold mapSet at h
  split at h
  · obtain ⟨p, hp, hpe⟩ := List.mem_map.mp h
    by_cases hpk : p.1 = k
    · right
      rw [← hpe]
      simp [hpk]
    · left
      have : (if p.1 == k then (k, v) else p) = p := by simp [hpk]
      rw [this] at hpe
      exact hpe ▸ hp
  · rcases List.mem_append.mp h with h1 | h1
    · exact Or.inl h1
    · exact Or.inr (List.mem_singleton.mp h1)

theorem mapHas_mapPush (m : List (String × List α)) (k : String) (e : α) (a : String) :
    mapHas (mapPush m k e) a = mapHas m a := by
  unfold mapPush mapHas
  rw [List.any_map]
  congr 1
  funext p
  simp only [Function.comp_apply]
  split <;> rfl

theorem mem_mapPush (m : List (String × List α)) (k : String) (e : α)
    (kv : String × List α) (h : kv ∈ mapPush m k e) :
    ∃ p ∈ m, kv.1 = p.1 ∧ (kv.2 = p.2 ∨ kv.2 = p.2 ++ [e]) := by
  obtain ⟨p, hp, hpe⟩ := List.mem_map.mp h
  refine ⟨p, hp, ?_⟩
  by_cases hpk : p.1 = k
  · have : (if p.1 == k then (p.1, p.2 ++ [e]) else p) = (p.1, p.2 ++ [e]) := by simp [hpk]
    rw [this] at hpe
    rw [← hpe]
    exact ⟨rfl, Or.inr rfl⟩
  · have : (if p.1 == k then (p.1, p.2 ++ [e]) else p) = p := by simp [hpk]
    rw [this] at hpe
    rw [← hpe]
    exact ⟨rfl, Or.inl rfl⟩

theorem mapHas_addParents_mono (n : Nat) (m : List (String × List DiffStatus))
    (p root a : String) (h : mapHas m a = true) :
    mapHas (addParents n m p root) a = true := by
  induction n generalizing m p with
  | zero => exact h
  | succ k ih =>
    unfold addParents
    split
    · exact h
    · apply ih
      split
      · exact h
      · exact mapHas_mapSet_mono m p [] a h

theorem mem_addParents (n : Nat) (m : List (String × List DiffStatus))
    (p root : String) (kv : String × List DiffStatus)
    (h : kv ∈ addParents n m p root) : kv ∈ m ∨ kv.2 = [] := by
  induction n generalizing m p with
  | zero => exact Or.inl h
  | succ k ih =>
    unfold addParents at h
    split at h
    · exact Or.inl h
    · rcases ih _ _ h with h1 | h1
      · split at h1
        · exact Or.inl h1
        · rcases mem_mapSet _ _ _ _ h1 with h2 | h2
          · exact Or.inl h2
          · right
            rw [h2]
      · exact Or.inr h1

theorem addParents_chain (n : Nat) (m : List (String × List DiffStatus))
    (p root : String) (h : reachesRoot root p n = true) :
    ∀ a ∈ chainTo root p n, a ≠ root →
      mapHas (addParents (n + 1) m p root) a = true := by
  induction n generalizing m p with
  | zero =>
    intro a ha har
    unfold chainTo at ha
    rw [List.mem_singleton.mp ha] at har
    unfold reachesRoot at h
    exact absurd (beq_iff_eq.mp h) har
  | succ k ih =>
    intro a ha har
    unfold reachesRoot at h
    unfold chainTo at ha
    unfold addParents
    by_cases hpr : p = root
    · rw [if_pos (beq_iff_eq.mpr hpr)] at ha
      rw [List.mem_singleton.mp ha] at har
      exact absurd hpr har
    · have hbr : (p == root) = false := beq_eq_false_iff_ne.mpr hpr
      rw [hbr] at h
      simp only [Bool.false_or] at h
      rw [if_neg (by simp [hbr])] at ha
      rw [if_neg (by simp [hbr])]
      rcases List.mem_cons.mp ha with hap | hap
      · subst hap
        apply mapHas_addParents_mono
        split
        · next hhas => exact hhas
        · exact mapHas_mapSet_self m a []
      · exact ih _ _ h a hap har

theorem chainClosed_step (root : String) (m : List (String × List DiffStatus))
    (e : DiffStatus)
    (he : reachesRoot root (dirname e.absPath) (dirname e.absPath).length = true)
    (hm : chainClosed root m) :
    chainClosed root
      (mapPush (addParents ((dirname e.absPath).length + 1)
          (if m.length == 0 then mapSet m root [] else m)
          (dirname e.absPath) root)
        (dirname e.absPath) e) := by
  have h_m1_root : mapHas (if m.length == 0 then mapSet m root [] else m) root = true := by
    split
    · exact mapHas_mapSet_self m root []
    · next hlen =>
      apply hm.2
      intro hnil
      rw [hnil] at hlen
      simp at hlen
  have h_m1_mono : ∀ a, mapHas m a = true →
      mapHas (if m.length == 0 then mapSet m root [] else m) a = true := by
    intro a h
    split
    · exact mapHas_mapSet_mono m root [] a h
    · exact h
  have h_mem_m1 : ∀ kv, kv ∈ (if m.length == 0 then mapSet m root [] else m) →
      kv ∈ m ∨ kv.2 = [] := by
    intro kv hkv
    split at hkv
    · rcases mem_mapSet _ _ _ _ hkv with h1 | h1
      · exact Or.inl h1
      · right
        rw [h1]
    · exact Or.inl hkv
  have h_m3_has : ∀ a,
      mapHas (mapPush (addParents ((dirname e.absPath).length + 1)
          (if m.length == 0 then mapSet m root [] else m) (dirname e.absPath) root)
        (dirname e.absPath) e) a
      = mapHas (addParents ((dirname e.absPath).length + 1)
          (if m.length == 0 then mapSet m root [] else m) (dirname e.absPath) root) a :=
    fun a => mapHas_mapPush _ _ _ a
  have h_root3 : mapHas (mapPush (addParents ((dirname e.absPath).length + 1)
      (if m.length == 0 then mapSet m root [] else m) (dirname e.absPath) root)
      (dirname e.absPath) e) root = true := by
    rw [h_m3_has]
    exact mapHas_addParents_mono _ _ _ _ _ h_m1_root
  have h_chain : ∀ a ∈ chainTo root (dirname e.absPath) (dirname e.absPath).length,
      mapHas (mapPush (addParents ((dirname e.absPath).length + 1)
          (if m.length == 0 then mapSet m root [] else m) (dirname e.absPath) root)
        (dirname e.absPath) e) a = true := by
    intro a ha
    by_cases har : a = root
    · rw [har]
      exact h_root3
    · rw [h_m3_has]
      exact addParents_chain _ _ _ _ he a ha har
  constructor
  · intro kv hkv f hf a ha
    obtain ⟨p, hp, hfst, hsnd⟩ := mem_mapPush _ _ _ kv hkv
    have hfp : f ∈ p.2 ∨ f = e := by
      rcases hsnd with hs | hs
      · exact Or.inl (hs ▸ hf)
      · rw [hs] at hf
        rcases List.mem_append.mp hf with h1 | h1
        · exact Or.inl h1
        · exact Or.inr (List.mem_singleton.mp h1)
    rcases hfp with hfp | hfp
    · rcases mem_addParents _ _ _ _ p hp with h1 | h1
      · rcases h_mem_m1 p h1 with h2 | h2
        · have := hm.1 p h2 f hfp a ha
          rw [h_m3_has]
          exact mapHas_addParents_mono _ _ _ _ _ (h_m1_mono a this)
        · rw [h2] at hfp
          exact absurd hfp (List.not_mem_nil f)
      · rw [h1] at hfp
        exact absurd hfp (List.not_mem_nil f)
    · subst hfp
      exact h_chain a ha
  · intro _
    exact h_root3

end GitTreeCompare

namespace GitTreeCompare

theorem foldStep_eq_inside (treeRoot repoRoot : String) (maps : FoldedMaps) (e : DiffStatus)
    (h : (dirname e.absPath == treeRoot
      || jsStartsWith (dirname e.absPath) (treeRoot ++ "/")) = true) :
    foldStep treeRoot repoRoot maps e =
      { maps with insideMap := mapPush (addParents ((dirname e.absPath).length + 1)
          (if maps.insideMap.length == 0 then mapSet maps.insideMap treeRoot []
            else maps.insideMap)
          (dirname e.absPath) treeRoot) (dirname e.absPath) e } := by
  unfold foldStep
  simp only [h, if_true]

theorem foldStep_eq_outside (treeRoot repoRoot : String) (maps : FoldedMaps) (e : DiffStatus)
    (h : (dirname e.absPath == treeRoot
      || jsStartsWith (dirname e.absPath) (treeRoot ++ "/")) = false) :
    foldStep treeRoot repoRoot maps e =
      { maps with outsideMap := mapPush (addParents ((dirname e.absPath).length + 1)
          (if maps.outsideMap.length == 0 then mapSet maps.outsideMap repoRoot []
            else maps.outsideMap)
          (dirname e.absPath) repoRoot) (dirname e.absPath) e } := by
  unfold foldStep
  simp only [h, if_false, Bool.false_eq_true]

theorem foldStep_chainClosed (treeRoot repoRoot : String) (maps : FoldedMaps)
    (e : DiffStatus)
    (he : reachesRoot (partitionRoot treeRoot repoRoot e)
      (dirname e.absPath) (dirname e.absPath).length = true)
    (hin : chainClosed treeRoot maps.insideMap)
    (hout : chainClosed repoRoot maps.outsideMap) :
    chainClosed treeRoot (foldStep treeRoot repoRoot maps e).insideMap ∧
      chainClosed repoRoot (foldStep treeRoot repoRoot maps e).outsideMap := by
  unfold partitionRoot at he
  cases hside : (dirname e.absPath == treeRoot
      || jsStartsWith (dirname e.absPath) (treeRoot ++ "/")) with
  | true =>
    rw [if_pos hside] at he
    rw [foldStep_eq_inside treeRoot repoRoot maps e hside]
    exact ⟨chainClosed_step treeRoot maps.insideMap e he hin, hout⟩
  | false =>
    rw [if_neg (by simp [hside])] at he
    rw [foldStep_eq_outside treeRoot repoRoot maps e hside]
    exact ⟨hin, chainClosed_step repoRoot maps.outsideMap e he hout⟩

theorem foldl_chainClosed (treeRoot repoRoot : String) (diff : List DiffStatus) :
    ∀ maps : FoldedMaps,
      (∀ e ∈ diff, reachesRoot (partitionRoot treeRoot repoRoot e)
        (dirname e.absPath) (dirname e.absPath).length = true) →
      chainClosed treeRoot maps.insideMap →
      chainClosed repoRoot maps.outsideMap →
      chainClosed treeRoot (diff.foldl (foldStep treeRoot repoRoot) maps).insideMap ∧
        chainClosed repoRoot (diff.foldl (foldStep treeRoot repoRoot) maps).outsideMap := by
  induction diff with
  | nil => exact fun maps _ hin hout => ⟨hin, hout⟩
  | cons e rest ih =>
    intro maps h hin hout
    have hstep := foldStep_chainClosed treeRoot repoRoot maps e
      (h e (List.mem_cons_self e rest)) hin hout
    exact ih (foldStep treeRoot repoRoot maps e)
      (fun f hf => h f (List.mem_cons_of_mem e hf)) hstep.1 hstep.2

/-- C4: after folding any list of change entries whose containing folders
reach their partition root (tree root for inside entries, repository root
for outside entries) along the dirname chain, every entry stored in either
partition mapping has its containing folder and every ancestor of it up to
and including the partition root present as a key of that mapping. -/
theorem foldDiff_ancestor_closure (treeRoot repoRoot : String) (diff : List DiffStatus)
    (h : ∀ e ∈ diff, reachesRoot (partitionRoot treeRoot repoRoot e)
      (dirname e.absPath) (dirname e.absPath).length = true) :
    (∀ kv ∈ (foldDiff treeRoot repoRoot diff).insideMap, ∀ e ∈ kv.2,
      ∀ a ∈ chainTo treeRoot (dirname e.absPath) (dirname e.absPath).length,
        mapHas (foldDiff treeRoot repoRoot diff).insideMap a = true) ∧
      (∀ kv ∈ (foldDiff treeRoot repoRoot diff).outsideMap, ∀ e ∈ kv.2,
        ∀ a ∈ chainTo repoRoot (dirname e.absPath) (dirname e.absPath).length,
          mapHas (foldDiff treeRoot repoRoot diff).outsideMap a = true) := by
  have hempty : ∀ root : String, chainClosed root [] :=
    fun root => ⟨fun kv hkv => absurd hkv (List.not_mem_nil kv), fun hne => absurd rfl hne⟩
  have := foldl_chainClosed treeRoot repoRoot diff ⟨[], []⟩ h
    (hempty treeRoot) (hempty repoRoot)
  exact ⟨this.1.1, this.2.1⟩

theorem foldDiff_ancestor_closure_witness :
    mapHas (foldDiff "/repo" "/repo" [entryM, entryB]).insideMap "/repo/src" = true :=
  (foldDiff_ancestor_closure "/repo" "/repo" [entryM, entryB] (by decide)).1
    ("/repo/src/pkg", [entryB]) (by decide) entryB (by decide) "/repo/src" (by decide)

end GitTreeCompare

namespace GitTreeCompare

theorem diffIndex_untracked_wins_witness :
    ((diffIndex "/r" [⟨StatusCode.D, "x", "100644", "000000"⟩] ["x"]).filter
        (fun s => s.absPath == "/r/x")).map (·.status) = [StatusCode.U] :=
  (diffIndex_untracked_wins "/r" [⟨StatusCode.D, "x", "100644", "000000"⟩] ["x"]
    (by decide) (by decide)).2 "/r/x" (by decide) (by decide)

end GitTreeCompare
